import Mathlib

/-!
# A verification of `polymodels/models.py` (django-polymodels)

Shallow embedding of the polymorphic-model machinery:

* `prepare_polymorphic_model` — the `class_prepared` receiver that checks the
  discriminator-field configuration and builds the `_subclass_accessors`
  tables;
* `BasePolymorphicModel.type_cast` — the accessor-chain walk, proxy
  reinterpretation and final `isinstance` check;
* `BasePolymorphicModel.save` — the save hook setting the discriminator.

Python classes are identified by natural numbers in definition order: every
base class of a class is created before the class itself, so the bases of
class `c` all have ids `< c`, and they are pairwise distinct (Python rejects
a duplicated base).  Per-class metadata (`_meta` together with the resolved
class attributes read by the code) is a `ClassInfo`; a `Registry` is the list
of all classes in definition order.

Functions that descend through the bases graph take a fuel argument so that
the recursion is structural (hence kernel-reducible); fuel exceeding the
relevant class id never changes the result (bases carry strictly smaller
ids), which the `…_stable` lemmas record, and every wrapper supplies such
fuel.
-/

namespace Polymodels

/-- A model field as far as `prepare_polymorphic_model` inspects it: its
name, whether it is a `models.ForeignKey`, and whether its `rel.to` is
`ContentType`. -/
structure Field where
  name : String
  isFK : Bool
  relToContentType : Bool
deriving DecidableEq, Repr

/-- Per-class information: `_meta.object_name`, `__bases__` (ids of earlier
classes), `issubclass(cls, BasePolymorphicModel)`, `_meta.abstract`,
`_meta.proxy`, the resolved `content_type_field_name` class attribute
(`none` when `getattr` would raise `AttributeError`), and the fields visible
through `_meta.get_field` (inherited fields included, as Django resolves
them). -/
structure ClassInfo where
  name : String
  bases : List Nat
  polymorphic : Bool
  abstract : Bool
  proxy : Bool
  ctFieldName : Option String
  fields : List Field
deriving DecidableEq, Repr

abbrev Registry := List ClassInfo

/-- Metadata of an id that denotes no class; in particular it is not
polymorphic, so the machinery ignores it. -/
def noClass : ClassInfo := ⟨"", [], false, false, false, none, []⟩

def info (reg : Registry) (c : Nat) : ClassInfo := (reg[c]?).getD noClass

/-- `__bases__` of a class.  Python guarantees that bases are defined before
the class (hence carry smaller ids) and are pairwise distinct; the
`filter`/`dedup` are inert on every registry satisfying that and only make
the termination measures of the recursions below evident. -/
def basesOf (reg : Registry) (c : Nat) : List Nat :=
  (((info reg c).bases).filter (· < c)).dedup

/-- Fueled `issubclass`; see `isSubclass`. -/
def isSubclassFuel (reg : Registry) : Nat → Nat → Nat → Bool
  | 0, c, d => c == d
  | fuel + 1, c, d =>
    c == d || (basesOf reg c).any (fun b => isSubclassFuel reg fuel b d)

/-- `issubclass(c, d)`: the reflexive-transitive closure of the bases
relation. -/
def isSubclass (reg : Registry) (c d : Nat) : Bool :=
  isSubclassFuel reg (c + 1) c d

/-- The value stored in a `_subclass_accessors` dict:
`(tuple(attrs), proxy, lookup)`. -/
structure Accessor where
  attrs : List String
  proxy : Option Nat
  lookup : String
deriving DecidableEq, Repr

/-- `EMPTY_ACCESSOR = ([], None, '')`. -/
def EMPTY_ACCESSOR : Accessor := ⟨[], none, ""⟩

/-- One `_subclass_accessors` dict, as an association list in insertion
order (Python dicts hold at most one binding per key). -/
abbrev Table := List (Nat × Accessor)

/-- Python dict assignment `t[k] = v`: overwrite in place, else append. -/
def dictInsert (t : Table) (k : Nat) (v : Accessor) : Table :=
  if t.any (fun e => e.1 == k) then
    t.map (fun e => if e.1 == k then (k, v) else e)
  else
    t ++ [(k, v)]

/-- Python `t.get(k)` (without default). -/
def dictGet (t : Table) (k : Nat) : Option Accessor :=
  (t.find? (fun e => e.1 == k)).map (·.2)

/-- `django.db.models.sql.constants.LOOKUP_SEP`. -/
def LOOKUP_SEP : String := "__"

/-- `LOOKUP_SEP.join(attrs[0:1])`. -/
def lookupOf (attrs : List String) : String :=
  String.intercalate LOOKUP_SEP (attrs.take 1)

/-- Python's `str.lower()` (class names are ASCII identifiers, on which it
agrees with `Char.toLower` characterwise). -/
def lower (s : String) : String := ⟨s.data.map Char.toLower⟩

/-- Result of the registrar's `while parents:` loop. -/
structure TravOut where
  tables : Nat → Option Table
  flag : Bool
  trace : List Nat

/-- Termination measure of the worklist: `parents` only ever trades one
class for its (smaller-id, duplicate-free) bases. -/
def wlMeasure (w : List Nat) : Nat := (w.map (fun b => 2 ^ b)).sum

/-- The `while parents:` loop of `prepare_polymorphic_model`.

`w` is the `parents` worklist, `attrs` the accumulated accessor names,
`tables` the per-class `_subclass_accessors` attributes (`none` = attribute
absent), `flag` the local `is_polymorphic_root` variable, and `trace`
records (purely as instrumentation — nothing reads it) every parent passing
the `issubclass(parent, BasePolymorphicModel)` test, in processing order.

The loop always terminates because popping `p` pushes only classes of
smaller id, so whenever `wlMeasure w < fuel` the fuel-exhausted branch is
unreachable; `prepare_polymorphic_model` supplies such fuel. -/
def traverse (reg : Registry) (sender : Nat) (senderProxy : Option Nat) :
    Nat → List Nat → List String → (Nat → Option Table) → Bool → List Nat →
    TravOut
  | _, [], _, tables, flag, trace => ⟨tables, flag, trace⟩
  | 0, _ :: _, _, tables, flag, trace => ⟨tables, flag, trace⟩
  | fuel + 1, p :: rest, attrs, tables, flag, trace =>
    if (info reg p).polymorphic then
      if (info reg p).abstract then
        traverse reg sender senderProxy fuel (basesOf reg p ++ rest) attrs
          tables flag (trace ++ [p])
      else
        -- is_polymorphic_root = parent is sender
        -- lookup = LOOKUP_SEP.join(attrs[0:1])
        -- parent_opts._subclass_accessors[sender] = (tuple(attrs), proxy, lookup)
        let entry : Accessor := ⟨attrs, senderProxy, lookupOf attrs⟩
        let tables' : Nat → Option Table := fun c =>
          if c == p then some (dictInsert ((tables p).getD []) sender entry)
          else tables c
        -- if not parent_opts.proxy: attrs.insert(0, object_name.lower())
        let attrs' :=
          if (info reg p).proxy then attrs
          else lower (info reg p).name :: attrs
        traverse reg sender senderProxy fuel (basesOf reg p ++ rest) attrs'
          tables' (p == sender) (trace ++ [p])
    else
      traverse reg sender senderProxy fuel rest attrs tables flag trace

/-- The configuration errors (`ImproperlyConfigured`) of the registrar. -/
inductive ConfigError where
  /-- "`BasePolymorphicModel` subclasses must define a
  `content_type_field_name`." -/
  | missingFieldName
  /-- "`….content_type_field_name` points to an inexistent field …". -/
  | fieldDoesNotExist (n : String)
  /-- "`…` must be a `ForeignKey` to `ContentType`." -/
  | wrongFieldKind (n : String)
deriving DecidableEq, Repr

/-- The ambient per-class state the registrar mutates:
`_meta._subclass_accessors` and `_meta._is_polymorphic_root` (`none` =
attribute never set on that class). -/
structure RegState where
  tables : Nat → Option Table
  isRoot : Nat → Option Bool

def initState : RegState := ⟨fun _ => none, fun _ => none⟩

/-- `opts.get_field(name)`. -/
def get_field (reg : Registry) (c : Nat) (n : String) : Option Field :=
  (info reg c).fields.find? (fun f => f.name == n)

/-- `prepare_polymorphic_model(sender)`, the `class_prepared` receiver.
In Python the local `is_polymorphic_root` starts out unassigned; whenever
the signal fires, `sender` is a concrete polymorphic class and the loop's
first iteration assigns the local, so the `false` passed below is dead. -/
def prepare_polymorphic_model (reg : Registry) (st : RegState) (sender : Nat) :
    Except ConfigError RegState :=
  if (info reg sender).polymorphic then
    match (info reg sender).ctFieldName with
    | none => .error .missingFieldName
    | some n =>
      match get_field reg sender n with
      | none => .error (.fieldDoesNotExist n)
      | some f =>
        if !(f.isFK && f.relToContentType) then
          .error (.wrongFieldKind n)
        else
          -- setattr(opts, '_subclass_accessors', {})
          let tables0 : Nat → Option Table := fun c =>
            if c == sender then some [] else st.tables c
          -- proxy = sender if opts.proxy else None
          let senderProxy := if (info reg sender).proxy then some sender
            else none
          let out := traverse reg sender senderProxy (2 ^ sender + 1) [sender]
            [] tables0 false []
          -- opts._is_polymorphic_root = is_polymorphic_root
          .ok ⟨out.tables, fun c =>
            if c == sender then some out.flag else st.isRoot c⟩
  else .ok st

/-- The receiver as run by Python's signal dispatch: a raised
`ImproperlyConfigured` propagates to the caller and leaves every class
attribute exactly as it was. -/
def prepareRun (reg : Registry) (st : RegState) (sender : Nat) :
    RegState × Option ConfigError :=
  match prepare_polymorphic_model reg st sender with
  | .ok st' => (st', none)
  | .error e => (st, some e)

/-- `class_prepared` firing once per class, in definition order. -/
def prepareAll (reg : Registry) : Except ConfigError RegState :=
  (List.range reg.length).foldlM
    (fun st sender => prepare_polymorphic_model reg st sender) initState

/-- The `_subclass_accessors` entry stored on class `c` under key `k` once
every class of `reg` has been prepared (`none` on a preparation error, on a
missing table or on a missing key). -/
def tableAt (reg : Registry) (c k : Nat) : Option Accessor :=
  match prepareAll reg with
  | .ok st =>
    match st.tables c with
    | some t => dictGet t k
    | none => none
  | .error _ => none

/-- The `_is_polymorphic_root` attribute of class `c` once every class of
`reg` has been prepared. -/
def rootAt (reg : Registry) (c : Nat) : Option Bool :=
  match prepareAll reg with
  | .ok st => st.isRoot c
  | .error _ => none

/-- The processing order of the registrar's loop for a given sender, for a
fresh signal invocation (the processing order does not depend on the
table/flag state). -/
def prepareTrace (reg : Registry) (sender : Nat) : List Nat :=
  (traverse reg sender
    (if (info reg sender).proxy then some sender else none)
    (2 ^ sender + 1) [sender] [] (fun _ => none) false []).trace

/-- Fueled version of `touchesConcrete`. -/
def touchesConcreteFuel (reg : Registry) : Nat → Nat → Bool
  | 0, _ => false
  | fuel + 1, c =>
    (info reg c).polymorphic &&
      (!(info reg c).abstract ||
        (basesOf reg c).any (fun b => touchesConcreteFuel reg fuel b))

/-- Whether the registrar's worklist seeded with `c` would pop at least one
concrete (non-abstract) polymorphic class: `c` is polymorphic and either is
concrete itself or reaches, through polymorphic bases, a concrete
polymorphic class. -/
def touchesConcrete (reg : Registry) (c : Nat) : Bool :=
  touchesConcreteFuel reg (c + 1) c

/-- Fueled version of `chainFrom`. -/
def chainFromFuel (reg : Registry) : Nat → Nat → List Nat
  | 0, _ => []
  | fuel + 1, c =>
    if (info reg c).polymorphic then
      c ::
        (match basesOf reg c with
         | [b] => chainFromFuel reg fuel b
         | _ => [])
    else []

/-- The ancestor chain of `c` in a single-inheritance hierarchy: `c`
followed by the chain of its sole base (stopping at non-polymorphic
classes, as the registrar's loop does). -/
def chainFrom (reg : Registry) (c : Nat) : List Nat :=
  chainFromFuel reg (c + 1) c

/-! ## Instances and the type caster -/

/-- A live record: its runtime class, primary key, concrete field values (a
content-type valued field stores the content type's id) and the one-to-one
relation attributes that resolve to a related row (`getattr` on a relation
whose row is missing raises `DoesNotExist`, modelled by absence from
`rels`). -/
inductive Obj where
  | mk (cls : Nat) (pk : Option Nat) (fieldVals : List (String × Nat))
      (rels : List (String × Obj))

def Obj.cls : Obj → Nat
  | .mk c _ _ _ => c

def Obj.pk : Obj → Option Nat
  | .mk _ p _ _ => p

def Obj.fieldVals : Obj → List (String × Nat)
  | .mk _ _ f _ => f

def Obj.rels : Obj → List (String × Obj)
  | .mk _ _ _ r => r

/-- `getattr(o, a)` for a one-to-one relation accessor; `none` models the
exception raised when the related row is missing. -/
def getAttr (o : Obj) (a : String) : Option Obj :=
  (o.rels.find? (fun r => r.1 == a)).map (·.2)

/-- The `for attr in attrs:` loop of `type_cast`. -/
def walk : Obj → List String → Option Obj
  | o, [] => some o
  | o, a :: rest =>
    match getAttr o a with
    | none => none
    | some o' => walk o' rest

/-- Modelled from the spec: `copy_fields` is defined in
`polymodels/utils.py`, which is not among the provided sources.  Per the
spec, a proxy cast reinterprets "the final walked object as the proxy type
by copying its field values into a new envelope of the proxy type". -/
def copy_fields (o : Obj) (proxyCls : Nat) : Obj :=
  .mk proxyCls o.pk o.fieldVals o.rels

/-- `isinstance(o, tgt)`. -/
def isinstance (reg : Registry) (o : Obj) (tgt : Nat) : Bool :=
  isSubclass reg o.cls tgt

/-- Outcome of `type_cast`. -/
inductive CastResult where
  | ok (o : Obj)
  /-- `TypeError("Failed to type cast %s to %s" % (self, to))`: carries the
  source instance and the intended target. -/
  | typeError (src : Obj) (tgt : Nat)
  /-- a relation hop raised: the related row is missing. -/
  | relatedMissing

/-- `BasePolymorphicModel.type_cast(self, to)` with an explicitly resolved
target; `tables` is the ambient `_subclass_accessors` state
(`self._meta._subclass_accessors` exists on every class the registrar
accepted, so the `getD []` is dead there). -/
def type_cast (reg : Registry) (tables : Nat → Option Table) (self : Obj)
    (tgt : Nat) : CastResult :=
  -- attrs, proxy, _lookup = self._meta._subclass_accessors.get(to, EMPTY_ACCESSOR)
  let acc := (dictGet ((tables self.cls).getD []) tgt).getD EMPTY_ACCESSOR
  match walk self acc.attrs with
  | none => .relatedMissing
  | some w =>
    -- if it is a proxy model, type cast via copy_fields
    let type_casted :=
      match acc.proxy with
      | some pr => copy_fields w pr
      | none => w
    if isinstance reg type_casted tgt then .ok type_casted
    else .typeError self tgt

/-- The object `type_cast` subjects to its final `isinstance` check: the
result of the accessor-chain walk followed by the proxy reinterpretation
(`none` when a relation hop raises). -/
def walkedObj (tables : Nat → Option Table) (self : Obj) (tgt : Nat) :
    Option Obj :=
  let acc := (dictGet ((tables self.cls).getD []) tgt).getD EMPTY_ACCESSOR
  (walk self acc.attrs).map (fun w =>
    match acc.proxy with
    | some pr => copy_fields w pr
    | none => w)

/-- Modelled from the spec: `get_content_type` is defined in
`polymodels/utils.py`, which is not among the provided sources.  Per the
spec, the global type registry provides `register(class, connection) ->
type_id`; `ctOf` is that assignment of a stable id to each class. -/
structure CTRegistry where
  ctOf : Nat → Nat

def getFieldVal (o : Obj) (nm : String) : Option Nat :=
  (o.fieldVals.find? (fun e => e.1 == nm)).map (·.2)

/-- `setattr(o, nm, v)` for a plain field. -/
def setFieldVal (o : Obj) (nm : String) (v : Nat) : Obj :=
  .mk o.cls o.pk ((nm, v) :: o.fieldVals) o.rels

/-- `BasePolymorphicModel.save`: the state of the instance as it is handed
to the underlying (external) `Model.save`.  The `getD ""` is dead: every
class the registrar accepted declares a `content_type_field_name`. -/
def save (reg : Registry) (ct : CTRegistry) (self : Obj) : Obj :=
  if self.pk = none then
    setFieldVal self ((info reg self.cls).ctFieldName.getD "")
      (ct.ctOf self.cls)
  else self

/-! ## Concrete hierarchies and instances used in the theorems -/

/-- A well-configured discriminator field. -/
def ctField : Field := ⟨"content_type", true, true⟩

/-- The spec's example hierarchy: Root → Middle → Leaf, each concrete and
one-to-one linked. -/
def linear3 : Registry :=
  [⟨"Root",   [],  true, false, false, some "content_type", [ctField]⟩,
   ⟨"Middle", [0], true, false, false, some "content_type", [ctField]⟩,
   ⟨"Leaf",   [1], true, false, false, some "content_type", [ctField]⟩]

/-- A diamond: `D(B, C)`, `B(A)`, `C(A)`, all polymorphic, `A` abstract. -/
def diamond4 : Registry :=
  [⟨"A", [],     true, true,  false, some "content_type", [ctField]⟩,
   ⟨"B", [0],    true, false, false, some "content_type", [ctField]⟩,
   ⟨"C", [0],    true, false, false, some "content_type", [ctField]⟩,
   ⟨"D", [1, 2], true, false, false, some "content_type", [ctField]⟩]

/-- A concrete base and a proxy of it. -/
def proxy2 : Registry :=
  [⟨"Base",  [],  true, false, false, some "content_type", [ctField]⟩,
   ⟨"Alias", [0], true, false, true,  some "content_type", [ctField]⟩]

/-- The `_subclass_accessors` state after preparing every class of `reg`
(empty attribute map on a configuration error). -/
def tablesOf (reg : Registry) : Nat → Option Table :=
  match prepareAll reg with
  | .ok st => st.tables
  | .error _ => fun _ => none

/-- A stored `Leaf` row of `linear3`. -/
def leafObj : Obj := .mk 2 (some 7) [("content_type", 2)] []

/-- The `Middle` row carrying `leafObj` under its one-to-one accessor. -/
def middleObj : Obj := .mk 1 (some 7) [("content_type", 2)] [("leaf", leafObj)]

/-- The `Root` row carrying `middleObj` under its one-to-one accessor. -/
def rootObj : Obj := .mk 0 (some 7) [("content_type", 2)] [("middle", middleObj)]

/-- A stored `Base` row of `proxy2`. -/
def baseObj : Obj := .mk 0 (some 3) [("content_type", 0), ("x", 42)] []

/-- An `Alias` (proxy) row of `proxy2`. -/
def aliasObj : Obj := .mk 1 (some 3) [("content_type", 0), ("x", 42)] []

/-- A brand-new (unsaved) `Leaf` instance of `linear3`. -/
def newLeafObj : Obj := .mk 2 none [] []

/-- The registration state after preparing every class of `reg`
(`initState` when a configuration error aborts). -/
def regStateOf (reg : Registry) : RegState :=
  match prepareAll reg with
  | .ok st => st
  | .error _ => initState

/-- A registry whose only class lacks a `content_type_field_name`. -/
def badReg1 : Registry := [⟨"Bad", [], true, false, false, none, [ctField]⟩]

/-- A content-type registry assigning id `c + 10` to class `c`. -/
def ctReg : CTRegistry := ⟨fun c => c + 10⟩

/-! ## Basic lemmas: bases, fuel stability, dictionaries -/

theorem any_congr {α : Type} {l : List α} {p q : α → Bool}
    (h : ∀ x ∈ l, p x = q x) : l.any p = l.any q := by
  induction l with
  | nil => rfl
  | cons a l ih =>
    simp only [List.any_cons, h a (by simp), ih (fun x hx => h x (by simp [hx]))]

theorem mem_basesOf_lt {reg : Registry} {c b : Nat} (h : b ∈ basesOf reg c) :
    b < c := by
  simp only [basesOf, List.mem_dedup, List.mem_filter, decide_eq_true_eq] at h
  exact h.2

theorem nodup_basesOf (reg : Registry) (c : Nat) : (basesOf reg c).Nodup :=
  (((info reg c).bases).filter (· < c)).nodup_dedup

theorem sum_range_two_pow (n : Nat) :
    (Finset.range n).sum (fun i => 2 ^ i) = 2 ^ n - 1 := by
  induction n with
  | zero => rfl
  | succ n ih =>
    have h1 : 1 ≤ 2 ^ n := Nat.one_le_two_pow
    rw [Finset.sum_range_succ, ih, pow_succ]
    omega

theorem sum_two_pow_lt (l : List Nat) (p : Nat) (hnd : l.Nodup)
    (hlt : ∀ b ∈ l, b < p) : (l.map (fun b => 2 ^ b)).sum < 2 ^ p := by
  have hsub : l.toFinset ⊆ Finset.range p := by
    intro x hx
    exact Finset.mem_range.mpr (hlt x (List.mem_toFinset.mp hx))
  have heq : l.toFinset.sum (fun b => 2 ^ b) = (l.map (fun b => 2 ^ b)).sum :=
    List.sum_toFinset _ hnd
  have hle : l.toFinset.sum (fun b => 2 ^ b) ≤
      (Finset.range p).sum (fun i => 2 ^ i) :=
    Finset.sum_le_sum_of_subset hsub
  have h1 : 1 ≤ 2 ^ p := Nat.one_le_two_pow
  rw [sum_range_two_pow] at hle
  omega

theorem wlMeasure_push_lt (reg : Registry) (p : Nat) (rest : List Nat) :
    wlMeasure (basesOf reg p ++ rest) < wlMeasure (p :: rest) := by
  have h := sum_two_pow_lt (basesOf reg p) p (nodup_basesOf reg p)
    (fun b hb => mem_basesOf_lt hb)
  simp only [wlMeasure, List.map_append, List.sum_append, List.map_cons,
    List.sum_cons]
  omega

theorem wlMeasure_skip_lt (p : Nat) (rest : List Nat) :
    wlMeasure rest < wlMeasure (p :: rest) := by
  have h : 0 < 2 ^ p := Nat.pos_pow_of_pos p (by omega)
  simp only [wlMeasure, List.map_cons, List.sum_cons]
  omega

theorem isSubclassFuel_stable (reg : Registry) :
    ∀ c f1 f2 d, c < f1 → c < f2 →
      isSubclassFuel reg f1 c d = isSubclassFuel reg f2 c d := by
  intro c
  induction c using Nat.strong_induction_on with
  | _ c ih =>
    intro f1 f2 d h1 h2
    cases f1 with
    | zero => omega
    | succ a =>
      cases f2 with
      | zero => omega
      | succ b =>
        simp only [isSubclassFuel]
        congr 1
        apply any_congr
        intro x hx
        have hxc : x < c := mem_basesOf_lt hx
        exact ih x hxc a b d (by omega) (by omega)

theorem isSubclass_unfold (reg : Registry) (c d : Nat) :
    isSubclass reg c d =
      (c == d || (basesOf reg c).any (fun b => isSubclass reg b d)) := by
  show isSubclassFuel reg (c + 1) c d = _
  simp only [isSubclassFuel]
  congr 1
  apply any_congr
  intro x hx
  exact isSubclassFuel_stable reg x c (x + 1) d (mem_basesOf_lt hx)
    (Nat.lt_succ_self x)

theorem isSubclass_refl (reg : Registry) (c : Nat) :
    isSubclass reg c c = true := by
  rw [isSubclass_unfold]
  simp

theorem isSubclass_le {reg : Registry} :
    ∀ c d, isSubclass reg c d = true → d ≤ c := by
  intro c
  induction c using Nat.strong_induction_on with
  | _ c ih =>
    intro d h
    rw [isSubclass_unfold] at h
    rcases Bool.or_eq_true_iff.mp h with h | h
    · have hcd : c = d := by simpa using h
      omega
    · rcases List.any_eq_true.mp h with ⟨b, hb, hsb⟩
      have hbc : b < c := mem_basesOf_lt hb
      have := ih b hbc d hsb
      omega

theorem isSubclass_of_base {reg : Registry} {c b : Nat}
    (hb : b ∈ basesOf reg c) : isSubclass reg c b = true := by
  rw [isSubclass_unfold]
  refine Bool.or_eq_true_iff.mpr (Or.inr ?_)
  exact List.any_eq_true.mpr ⟨b, hb, isSubclass_refl reg b⟩

theorem isSubclass_trans {reg : Registry} :
    ∀ a b c, isSubclass reg a b = true → isSubclass reg b c = true →
      isSubclass reg a c = true := by
  intro a
  induction a using Nat.strong_induction_on with
  | _ a ih =>
    intro b c h1 h2
    rw [isSubclass_unfold] at h1
    rcases Bool.or_eq_true_iff.mp h1 with h | h
    · have hab : a = b := by simpa using h
      subst hab
      exact h2
    · rcases List.any_eq_true.mp h with ⟨x, hx, hsx⟩
      have hxc := ih x (mem_basesOf_lt hx) b c hsx h2
      rw [isSubclass_unfold]
      exact Bool.or_eq_true_iff.mpr
        (Or.inr (List.any_eq_true.mpr ⟨x, hx, hxc⟩))

theorem touchesConcreteFuel_stable (reg : Registry) :
    ∀ c f1 f2, c < f1 → c < f2 →
      touchesConcreteFuel reg f1 c = touchesConcreteFuel reg f2 c := by
  intro c
  induction c using Nat.strong_induction_on with
  | _ c ih =>
    intro f1 f2 h1 h2
    cases f1 with
    | zero => omega
    | succ a =>
      cases f2 with
      | zero => omega
      | succ b =>
        simp only [touchesConcreteFuel]
        congr 2
        apply any_congr
        intro x hx
        have hxc : x < c := mem_basesOf_lt hx
        exact ih x hxc a b (by omega) (by omega)

theorem touchesConcrete_unfold (reg : Registry) (c : Nat) :
    touchesConcrete reg c =
      ((info reg c).polymorphic &&
        (!(info reg c).abstract ||
          (basesOf reg c).any (fun b => touchesConcrete reg b))) := by
  show touchesConcreteFuel reg (c + 1) c = _
  simp only [touchesConcreteFuel]
  congr 2
  apply any_congr
  intro x hx
  exact touchesConcreteFuel_stable reg x c (x + 1) (mem_basesOf_lt hx)
    (Nat.lt_succ_self x)

theorem chainFromFuel_stable (reg : Registry) :
    ∀ c f1 f2, c < f1 → c < f2 →
      chainFromFuel reg f1 c = chainFromFuel reg f2 c := by
  intro c
  induction c using Nat.strong_induction_on with
  | _ c ih =>
    intro f1 f2 h1 h2
    cases f1 with
    | zero => omega
    | succ a =>
      cases f2 with
      | zero => omega
      | succ b =>
        simp only [chainFromFuel]
        rcases hb : basesOf reg c with _ | ⟨x, _ | ⟨y, l⟩⟩ <;> simp only
        have hxc : x < c :=
          mem_basesOf_lt (by rw [hb]; exact List.mem_singleton_self x)
        rw [ih x hxc a b (by omega) (by omega)]

theorem chainFrom_unfold (reg : Registry) (c : Nat) :
    chainFrom reg c =
      (if (info reg c).polymorphic then
        c ::
          (match basesOf reg c with
           | [b] => chainFrom reg b
           | _ => [])
      else []) := by
  show chainFromFuel reg (c + 1) c = _
  simp only [chainFromFuel]
  rcases hb : basesOf reg c with _ | ⟨x, _ | ⟨y, l⟩⟩ <;> simp only
  have hxc : x < c :=
    mem_basesOf_lt (by rw [hb]; exact List.mem_singleton_self x)
  rw [chainFromFuel_stable reg x c (x + 1) hxc (Nat.lt_succ_self x)]
  rfl

theorem dictGet_map_self (t : Table) (k : Nat) (v : Accessor)
    (h : t.any (fun e => e.1 == k) = true) :
    dictGet (t.map (fun e => if e.1 == k then (k, v) else e)) k = some v := by
  induction t with
  | nil => simp at h
  | cons e t ih =>
    by_cases he : (e.1 == k) = true
    · simp [dictGet, List.find?, he]
    · have h2 : t.any (fun e => e.1 == k) = true := by
        simp only [List.any_cons, he, Bool.false_or] at h
        exact h
      have he' : (e.1 == k) = false := by simpa using he
      have := ih h2
      simp only [dictGet, List.map_cons, List.find?, he',
        Bool.false_eq_true, if_false] at this ⊢
      exact this

theorem dictGet_map_ne (t : Table) (k : Nat) (v : Accessor) (k' : Nat)
    (hne : k' ≠ k) :
    dictGet (t.map (fun e => if e.1 == k then (k, v) else e)) k'
      = dictGet t k' := by
  induction t with
  | nil => rfl
  | cons e t ih =>
    by_cases he : (e.1 == k) = true
    · have h1 : e.1 = k := by simpa using he
      have h2 : (k == k') = false :=
        beq_eq_false_iff_ne.mpr (fun hkk => hne hkk.symm)
      have h3 : (e.1 == k') = false := by rw [h1]; exact h2
      simp only [dictGet, List.map_cons, List.find?, he, if_true, h2, h3,
        Bool.false_eq_true, if_false] at ih ⊢
      exact ih
    · have he' : (e.1 == k) = false := by simpa using he
      by_cases hk2 : (e.1 == k') = true
      · simp [dictGet, List.find?, he', hk2]
      · have hk2' : (e.1 == k') = false := by simpa using hk2
        simp only [dictGet, List.map_cons, List.find?, he', hk2',
          Bool.false_eq_true, if_false] at ih ⊢
        exact ih

theorem dictGet_append_absent (t : Table) (k : Nat) (v : Accessor) (k' : Nat)
    (hfalse : t.any (fun e => e.1 == k) = false) :
    dictGet (t ++ [(k, v)]) k' = if k' = k then some v else dictGet t k' := by
  induction t with
  | nil =>
    by_cases hk : k' = k
    · subst hk
      simp [dictGet, List.find?]
    · have hkk : (k == k') = false :=
        beq_eq_false_iff_ne.mpr (fun h => hk h.symm)
      simp [dictGet, List.find?, hkk, hk]
  | cons e t ih =>
    have hall := List.any_eq_false.mp hfalse
    have he : (e.1 == k) = false := by
      simpa using hall e (List.mem_cons_self e t)
    have ht : t.any (fun x => x.1 == k) = false :=
      List.any_eq_false.mpr (fun x hx => hall x (List.mem_cons_of_mem e hx))
    by_cases he' : (e.1 == k') = true
    · have hk : ¬ k' = k := by
        intro h
        subst h
        rw [he] at he'
        exact absurd he' (by simp)
      simp [dictGet, List.find?, he', hk]
    · have he'f : (e.1 == k') = false := by simpa using he'
      have := ih ht
      simp only [dictGet, List.cons_append, List.find?, he'f,
        Bool.false_eq_true, if_false] at this ⊢
      exact this

theorem dictGet_insert (t : Table) (k : Nat) (v : Accessor) (k' : Nat) :
    dictGet (dictInsert t k v) k'
      = if k' = k then some v else dictGet t k' := by
  unfold dictInsert
  by_cases hany : t.any (fun e => e.1 == k) = true
  · rw [if_pos hany]
    by_cases hk : k' = k
    · subst hk
      rw [dictGet_map_self t k' v hany, if_pos rfl]
    · rw [dictGet_map_ne t k v k' hk, if_neg hk]
  · rw [if_neg hany]
    refine dictGet_append_absent t k v k' ?_
    cases h : t.any (fun e => e.1 == k) with
    | false => rfl
    | true => exact absurd h hany

theorem lookupOf_eq_head (attrs : List String) :
    lookupOf attrs = (attrs.head?).getD "" := by
  cases attrs with
  | nil => rfl
  | cons a l => rfl

/-! ## Invariants of the registrar's loop -/

/-- The loop writes entries under key `sender` only: every other key reads
the same before and after. -/
theorem traverse_get_ne (reg : Registry) (s : Nat) (pr : Option Nat) :
    ∀ fuel w attrs tables flag trace c k, k ≠ s →
      dictGet
        (((traverse reg s pr fuel w attrs tables flag trace).tables c).getD [])
        k
        = dictGet ((tables c).getD []) k := by
  intro fuel
  induction fuel with
  | zero =>
    intro w attrs tables flag trace c k hk
    cases w <;> rfl
  | succ fuel ih =>
    intro w attrs tables flag trace c k hk
    cases w with
    | nil => rfl
    | cons p rest =>
      by_cases hp : (info reg p).polymorphic = true
      · by_cases ha : (info reg p).abstract = true
        · simp only [traverse, hp, ha, if_true]
          exact ih _ _ _ _ _ c k hk
        · have ha' : (info reg p).abstract = false := by simpa using ha
          simp only [traverse, hp, ha', if_true, Bool.false_eq_true, if_false]
          rw [ih _ _ _ _ _ c k hk]
          by_cases hc : (c == p) = true
          · simp only [hc, if_true, Option.getD_some]
            have hcp : c = p := by simpa using hc
            rw [dictGet_insert, if_neg hk, hcp]
          · have hc' : (c == p) = false := by simpa using hc
            simp only [hc', Bool.false_eq_true, if_false]
      · have hp' : (info reg p).polymorphic = false := by simpa using hp
        simp only [traverse, hp', Bool.false_eq_true, if_false]
        exact ih _ _ _ _ _ c k hk

/-- The loop writes only to tables of classes it pops; a class above every
worklist element keeps its table untouched. -/
theorem traverse_tables_above (reg : Registry) (s : Nat) (pr : Option Nat) :
    ∀ fuel w attrs tables flag trace c, (∀ x ∈ w, x < c) →
      (traverse reg s pr fuel w attrs tables flag trace).tables c
        = tables c := by
  intro fuel
  induction fuel with
  | zero =>
    intro w attrs tables flag trace c hw
    cases w <;> rfl
  | succ fuel ih =>
    intro w attrs tables flag trace c hw
    cases w with
    | nil => rfl
    | cons p rest =>
      have hpc : p < c := hw p (List.mem_cons_self p rest)
      have hrest : ∀ x ∈ rest, x < c :=
        fun x hx => hw x (List.mem_cons_of_mem p hx)
      have hpush : ∀ x ∈ basesOf reg p ++ rest, x < c := by
        intro x hx
        rcases List.mem_append.mp hx with hx | hx
        · exact lt_trans (mem_basesOf_lt hx) hpc
        · exact hrest x hx
      by_cases hp : (info reg p).polymorphic = true
      · by_cases ha : (info reg p).abstract = true
        · simp only [traverse, hp, ha, if_true]
          exact ih _ _ _ _ _ c hpush
        · have ha' : (info reg p).abstract = false := by simpa using ha
          simp only [traverse, hp, ha', if_true, Bool.false_eq_true, if_false]
          rw [ih _ _ _ _ _ c hpush]
          have hc' : (c == p) = false :=
            beq_eq_false_iff_ne.mpr (fun h => absurd h (by omega))
          simp only [hc', Bool.false_eq_true, if_false]
      · have hp' : (info reg p).polymorphic = false := by simpa using hp
        simp only [traverse, hp', Bool.false_eq_true, if_false]
        exact ih _ _ _ _ _ c hrest

/-- Every entry the loop stores carries, as its lookup path, the first
accessor name of its chain (`LOOKUP_SEP.join(attrs[0:1])`); entries already
satisfying this keep satisfying it. -/
theorem traverse_lookup_inv (reg : Registry) (s : Nat) (pr : Option Nat) :
    ∀ fuel w attrs tables flag trace,
      (∀ c k a, dictGet ((tables c).getD []) k = some a →
        a.lookup = (a.attrs.head?).getD "") →
      ∀ c k a,
        dictGet
          (((traverse reg s pr fuel w attrs tables flag trace).tables c).getD
            []) k = some a →
        a.lookup = (a.attrs.head?).getD "" := by
  intro fuel
  induction fuel with
  | zero =>
    intro w attrs tables flag trace hinv c k a
    cases w <;> exact hinv c k a
  | succ fuel ih =>
    intro w attrs tables flag trace hinv c k a
    cases w with
    | nil => exact hinv c k a
    | cons p rest =>
      by_cases hp : (info reg p).polymorphic = true
      · by_cases ha : (info reg p).abstract = true
        · simp only [traverse, hp, ha, if_true]
          exact ih _ _ _ _ _ hinv c k a
        · have ha' : (info reg p).abstract = false := by simpa using ha
          simp only [traverse, hp, ha', if_true, Bool.false_eq_true, if_false]
          refine ih _ _ _ _ _ ?_ c k a
          intro c' k' a' h
          by_cases hc : (c' == p) = true
          · simp only [hc, if_true, Option.getD_some] at h
            rw [dictGet_insert] at h
            by_cases hk : k' = s
            · rw [if_pos hk] at h
              cases h
              exact lookupOf_eq_head attrs
            · rw [if_neg hk] at h
              exact hinv p k' a' (by
                have hcp : c' = p := by simpa using hc
                rw [← hcp]
                exact hcp ▸ h)
          · have hc' : (c' == p) = false := by simpa using hc
            simp only [hc', Bool.false_eq_true, if_false] at h
            exact hinv c' k' a' h
      · have hp' : (info reg p).polymorphic = false := by simpa using hp
        simp only [traverse, hp', Bool.false_eq_true, if_false]
        exact ih _ _ _ _ _ hinv c k a

/-- Every entry the loop stores sits on the table of a popped class `p`
with key `sender`, and the worklist stays below subclasses of `sender`:
so all keys ever stored denote subclasses of the table's owner. -/
theorem traverse_keys_subclass (reg : Registry) (s : Nat) (pr : Option Nat) :
    ∀ fuel w attrs tables flag trace,
      (∀ x ∈ w, isSubclass reg s x = true) →
      (∀ c k a, dictGet ((tables c).getD []) k = some a →
        isSubclass reg k c = true) →
      ∀ c k a,
        dictGet
          (((traverse reg s pr fuel w attrs tables flag trace).tables c).getD
            []) k = some a →
        isSubclass reg k c = true := by
  intro fuel
  induction fuel with
  | zero =>
    intro w attrs tables flag trace hw hinv c k a
    cases w <;> exact hinv c k a
  | succ fuel ih =>
    intro w attrs tables flag trace hw hinv c k a
    cases w with
    | nil => exact hinv c k a
    | cons p rest =>
      have hsp : isSubclass reg s p = true := hw p (List.mem_cons_self p rest)
      have hwpush : ∀ x ∈ basesOf reg p ++ rest, isSubclass reg s x = true := by
        intro x hx
        rcases List.mem_append.mp hx with hx | hx
        · exact isSubclass_trans s p x hsp (isSubclass_of_base hx)
        · exact hw x (List.mem_cons_of_mem p hx)
      have hwrest : ∀ x ∈ rest, isSubclass reg s x = true :=
        fun x hx => hw x (List.mem_cons_of_mem p hx)
      by_cases hp : (info reg p).polymorphic = true
      · by_cases ha : (info reg p).abstract = true
        · simp only [traverse, hp, ha, if_true]
          exact ih _ _ _ _ _ hwpush hinv c k a
        · have ha' : (info reg p).abstract = false := by simpa using ha
          simp only [traverse, hp, ha', if_true, Bool.false_eq_true, if_false]
          refine ih _ _ _ _ _ hwpush ?_ c k a
          intro c' k' a' h
          by_cases hc : (c' == p) = true
          · have hcp : c' = p := by simpa using hc
            subst hcp
            simp only [hc, if_true, Option.getD_some] at h
            rw [dictGet_insert] at h
            by_cases hk : k' = s
            · subst hk
              exact hsp
            · rw [if_neg hk] at h
              exact hinv c' k' a' h
          · have hc' : (c' == p) = false := by simpa using hc
            simp only [hc', Bool.false_eq_true, if_false] at h
            exact hinv c' k' a' h
      · have hp' : (info reg p).polymorphic = false := by simpa using hp
        simp only [traverse, hp', Bool.false_eq_true, if_false]
        exact ih _ _ _ _ _ hwrest hinv c k a

theorem touchesConcrete_of_concrete {reg : Registry} {c : Nat}
    (hp : (info reg c).polymorphic = true)
    (ha : (info reg c).abstract = false) : touchesConcrete reg c = true := by
  rw [touchesConcrete_unfold, hp, ha]
  rfl

theorem touchesConcrete_nonpoly {reg : Registry} {c : Nat}
    (hp : (info reg c).polymorphic = false) :
    touchesConcrete reg c = false := by
  rw [touchesConcrete_unfold, hp]
  rfl

/-- If no worklist element leads to a concrete polymorphic class, the
`is_polymorphic_root` local is never reassigned. -/
theorem traverse_flag_no_touch (reg : Registry) (s : Nat) (pr : Option Nat) :
    ∀ fuel w attrs tables flag trace,
      (∀ x ∈ w, touchesConcrete reg x = false) →
      (traverse reg s pr fuel w attrs tables flag trace).flag = flag := by
  intro fuel
  induction fuel with
  | zero =>
    intro w attrs tables flag trace hw
    cases w <;> rfl
  | succ fuel ih =>
    intro w attrs tables flag trace hw
    cases w with
    | nil => rfl
    | cons p rest =>
      have hwp : touchesConcrete reg p = false := hw p (List.mem_cons_self p rest)
      have hwrest : ∀ x ∈ rest, touchesConcrete reg x = false :=
        fun x hx => hw x (List.mem_cons_of_mem p hx)
      by_cases hp : (info reg p).polymorphic = true
      · rw [touchesConcrete_unfold, hp, Bool.true_and] at hwp
        by_cases ha : (info reg p).abstract = true
        · rw [ha] at hwp
          simp only [Bool.not_true, Bool.false_or] at hwp
          have hbases : ∀ x ∈ basesOf reg p, touchesConcrete reg x = false := by
            intro x hx
            have := List.any_eq_false.mp hwp x hx
            simpa using this
          have hpush : ∀ x ∈ basesOf reg p ++ rest,
              touchesConcrete reg x = false := by
            intro x hx
            rcases List.mem_append.mp hx with hx | hx
            · exact hbases x hx
            · exact hwrest x hx
          simp only [traverse, hp, ha, if_true]
          exact ih _ _ _ _ _ hpush
        · have ha' : (info reg p).abstract = false := by simpa using ha
          rw [ha'] at hwp
          simp only [Bool.not_false, Bool.true_or] at hwp
          exact absurd hwp (by simp)
      · have hp' : (info reg p).polymorphic = false := by simpa using hp
        simp only [traverse, hp', Bool.false_eq_true, if_false]
        exact ih _ _ _ _ _ hwrest

/-- If some worklist element leads to a concrete polymorphic class and the
sender is above the whole worklist, the loop ends with
`is_polymorphic_root = False`: the last concrete pop is not the sender. -/
theorem traverse_flag_touch_false (reg : Registry) (s : Nat) (pr : Option Nat) :
    ∀ fuel w attrs tables flag trace,
      wlMeasure w < fuel →
      (∀ x ∈ w, x < s) →
      w.any (touchesConcrete reg) = true →
      (traverse reg s pr fuel w attrs tables flag trace).flag = false := by
  intro fuel
  induction fuel with
  | zero =>
    intro w attrs tables flag trace hm hw hany
    omega
  | succ fuel ih =>
    intro w attrs tables flag trace hm hw hany
    cases w with
    | nil => simp at hany
    | cons p rest =>
      have hps : p < s := hw p (List.mem_cons_self p rest)
      have hwrest : ∀ x ∈ rest, x < s :=
        fun x hx => hw x (List.mem_cons_of_mem p hx)
      have hwpush : ∀ x ∈ basesOf reg p ++ rest, x < s := by
        intro x hx
        rcases List.mem_append.mp hx with hx | hx
        · exact lt_trans (mem_basesOf_lt hx) hps
        · exact hwrest x hx
      have hmrest : wlMeasure rest < fuel := by
        have := wlMeasure_skip_lt p rest
        omega
      have hmpush : wlMeasure (basesOf reg p ++ rest) < fuel := by
        have := wlMeasure_push_lt reg p rest
        omega
      simp only [List.any_cons, Bool.or_eq_true] at hany
      by_cases hp : (info reg p).polymorphic = true
      · by_cases ha : (info reg p).abstract = true
        · have hpushany : (basesOf reg p ++ rest).any (touchesConcrete reg)
              = true := by
            rcases hany with hany | hany
            · rw [touchesConcrete_unfold, hp, ha, Bool.true_and] at hany
              simp only [Bool.not_true, Bool.false_or] at hany
              rw [List.any_append, hany, Bool.true_or]
            · rw [List.any_append, hany, Bool.or_true]
          simp only [traverse, hp, ha, if_true]
          exact ih _ _ _ _ _ hmpush hwpush hpushany
        · have ha' : (info reg p).abstract = false := by simpa using ha
          have hpne : (p == s) = false :=
            beq_eq_false_iff_ne.mpr (by omega)
          simp only [traverse, hp, ha', if_true, Bool.false_eq_true, if_false]
          rw [hpne]
          cases hpushany : (basesOf reg p ++ rest).any (touchesConcrete reg) with
          | true => exact ih _ _ _ _ _ hmpush hwpush hpushany
          | false =>
            have hno : ∀ x ∈ basesOf reg p ++ rest,
                touchesConcrete reg x = false := by
              intro x hx
              have := List.any_eq_false.mp hpushany x hx
              simpa using this
            exact traverse_flag_no_touch reg s pr _ _ _ _ _ _ hno
      · have hp' : (info reg p).polymorphic = false := by simpa using hp
        have hrestany : rest.any (touchesConcrete reg) = true := by
          rcases hany with hany | hany
          · rw [touchesConcrete_nonpoly hp'] at hany
            exact absurd hany (by simp)
          · exact hany
        simp only [traverse, hp', Bool.false_eq_true, if_false]
        exact ih _ _ _ _ _ hmrest hwrest hrestany

/-- The loop seeded with a concrete polymorphic sender ends with
`is_polymorphic_root` true exactly when no base of the sender leads to a
concrete polymorphic class. -/
theorem traverse_root_flag (reg : Registry) (sender : Nat) (pr : Option Nat)
    (tables : Nat → Option Table)
    (hp : (info reg sender).polymorphic = true)
    (ha : (info reg sender).abstract = false) :
    (traverse reg sender pr (2 ^ sender + 1) [sender] [] tables false []).flag
      = !((basesOf reg sender).any (touchesConcrete reg)) := by
  simp only [traverse, hp, ha, if_true, Bool.false_eq_true, if_false,
    List.append_nil, beq_self_eq_true]
  cases hany : (basesOf reg sender).any (touchesConcrete reg) with
  | false =>
    have hno : ∀ x ∈ basesOf reg sender, touchesConcrete reg x = false := by
      intro x hx
      have := List.any_eq_false.mp hany x hx
      simpa using this
    rw [traverse_flag_no_touch reg sender pr _ _ _ _ _ _ hno]
    rfl
  | true =>
    have hm : wlMeasure (basesOf reg sender) < 2 ^ sender :=
      sum_two_pow_lt _ sender (nodup_basesOf reg sender)
        (fun b hb => mem_basesOf_lt hb)
    rw [traverse_flag_touch_false reg sender pr _ _ _ _ _ _ hm
      (fun x hx => mem_basesOf_lt hx) hany]
    rfl

/-- In a single-inheritance registry the loop seeded with `c` processes
exactly the chain of `c`'s polymorphic ancestors, nearest first. -/
theorem traverse_trace_linear (reg : Registry) (s : Nat) (pr : Option Nat)
    (hlin : ∀ x, (basesOf reg x).length ≤ 1) :
    ∀ fuel c attrs tables flag trace,
      wlMeasure [c] < fuel →
      (traverse reg s pr fuel [c] attrs tables flag trace).trace
        = trace ++ chainFrom reg c := by
  intro fuel
  induction fuel with
  | zero =>
    intro c attrs tables flag trace hm
    omega
  | succ fuel ih =>
    intro c attrs tables flag trace hm
    by_cases hp : (info reg c).polymorphic = true
    · rcases hb : basesOf reg c with _ | ⟨b, bs⟩
      · have hchain : chainFrom reg c = [c] := by
          rw [chainFrom_unfold, hp, hb]
          rfl
        rw [hchain]
        by_cases ha : (info reg c).abstract = true
        · simp only [traverse, hp, ha, if_true, hb, List.nil_append]
        · have ha' : (info reg c).abstract = false := by simpa using ha
          simp only [traverse, hp, ha', if_true, Bool.false_eq_true, if_false,
            hb, List.nil_append]
      · have hbs : bs = [] := by
          have := hlin c
          rw [hb] at this
          simp at this
          exact this
        subst hbs
        have hbc : b < c :=
          mem_basesOf_lt (by rw [hb]; exact List.mem_singleton_self b)
        have hchain : chainFrom reg c = c :: chainFrom reg b := by
          rw [chainFrom_unfold, hp, hb]
          rfl
        have hmb : wlMeasure [b] < fuel := by
          have h1 : (2 : Nat) ^ b < 2 ^ c :=
            Nat.pow_lt_pow_right (by omega) hbc
          simp only [wlMeasure, List.map_cons, List.map_nil, List.sum_cons,
            List.sum_nil] at hm ⊢
          omega
        rw [hchain]
        by_cases ha : (info reg c).abstract = true
        · simp only [traverse, hp, ha, if_true, hb, List.singleton_append]
          rw [ih b _ _ _ _ hmb]
          simp
        · have ha' : (info reg c).abstract = false := by simpa using ha
          simp only [traverse, hp, ha', if_true, Bool.false_eq_true, if_false,
            hb, List.singleton_append]
          rw [ih b _ _ _ _ hmb]
          simp
    · have hp' : (info reg c).polymorphic = false := by simpa using hp
      have hchain : chainFrom reg c = [] := by
        rw [chainFrom_unfold, hp']
        rfl
      simp only [traverse, hp', Bool.false_eq_true, if_false, hchain,
        List.append_nil]

theorem chainFrom_le (reg : Registry) :
    ∀ c, ∀ x ∈ chainFrom reg c, x ≤ c := by
  intro c
  induction c using Nat.strong_induction_on with
  | _ c ih =>
    intro x hx
    rw [chainFrom_unfold] at hx
    by_cases hp : (info reg c).polymorphic = true
    · rw [hp, if_pos rfl] at hx
      rcases List.mem_cons.mp hx with hx | hx
      · omega
      · rcases hb : basesOf reg c with _ | ⟨b, _ | ⟨y, l⟩⟩ <;> rw [hb] at hx
        · simp at hx
        · have hbc : b < c :=
            mem_basesOf_lt (by rw [hb]; exact List.mem_singleton_self b)
          have := ih b hbc x hx
          omega
        · simp at hx
    · have hp' : (info reg c).polymorphic = false := by simpa using hp
      rw [hp'] at hx
      simp at hx

theorem chainFrom_nodup (reg : Registry) :
    ∀ c, (chainFrom reg c).Nodup := by
  intro c
  induction c using Nat.strong_induction_on with
  | _ c ih =>
    rw [chainFrom_unfold]
    by_cases hp : (info reg c).polymorphic = true
    · rw [hp, if_pos rfl]
      rcases hb : basesOf reg c with _ | ⟨b, _ | ⟨y, l⟩⟩
      · simp
      · have hbc : b < c :=
          mem_basesOf_lt (by rw [hb]; exact List.mem_singleton_self b)
        refine List.nodup_cons.mpr ⟨?_, ih b hbc⟩
        intro hmem
        have := chainFrom_le reg b c hmem
        omega
      · simp
    · have hp' : (info reg c).polymorphic = false := by simpa using hp
      rw [hp']
      simp

/-- One iteration of the loop on a concrete, non-abstract polymorphic
parent: it stores, on that parent's table under the sender's key, the
accessor names accumulated so far (before this parent's own link) together
with the proxy marker and the single-hop lookup path, and it prepends the
parent's lowercased class name to the accumulated list unless the parent is
a proxy. -/
theorem traverse_step_concrete (reg : Registry) (s : Nat) (pr : Option Nat)
    (fuel p : Nat) (rest : List Nat) (attrs : List String)
    (tables : Nat → Option Table) (flag : Bool) (trace : List Nat)
    (hp : (info reg p).polymorphic = true)
    (ha : (info reg p).abstract = false) :
    traverse reg s pr (fuel + 1) (p :: rest) attrs tables flag trace
      = traverse reg s pr fuel (basesOf reg p ++ rest)
          (if (info reg p).proxy then attrs
            else lower (info reg p).name :: attrs)
          (fun c =>
            if c == p then
              some (dictInsert ((tables p).getD []) s
                ⟨attrs, pr, lookupOf attrs⟩)
            else tables c)
          (p == s) (trace ++ [p]) := by
  simp only [traverse, hp, ha, if_true, Bool.false_eq_true, if_false]

/-! ## Lemmas about a single `class_prepared` invocation -/

/-- On the success path the receiver installs the sender's own entry: an
empty accessor chain, the sender itself as proxy marker when the sender is
a proxy, and an empty lookup path. -/
theorem prepare_ok_own_entry {reg : Registry} {st st' : RegState} {c : Nat}
    (hp : (info reg c).polymorphic = true)
    (ha : (info reg c).abstract = false)
    (hok : prepare_polymorphic_model reg st c = .ok st') :
    dictGet ((st'.tables c).getD []) c
      = some ⟨[], if (info reg c).proxy then some c else none, ""⟩ := by
  unfold prepare_polymorphic_model at hok
  rw [hp, if_pos rfl] at hok
  rcases hn : (info reg c).ctFieldName with _ | n <;> simp only [hn] at hok
  · exact absurd hok (by simp)
  rcases hf : get_field reg c n with _ | f <;> simp only [hf] at hok
  · exact absurd hok (by simp)
  by_cases hk : (f.isFK && f.relToContentType) = true
  · rw [hk] at hok
    simp only [Bool.not_true, Bool.false_eq_true, if_false, Except.ok.injEq]
      at hok
    subst hok
    try dsimp only
    rw [traverse_step_concrete reg c _ (2 ^ c) c [] [] _ false [] hp ha]
    have habove : ∀ x ∈ basesOf reg c ++ ([] : List Nat), x < c := by
      intro x hx
      rcases List.mem_append.mp hx with hx | hx
      · exact mem_basesOf_lt hx
      · simp at hx
    rw [traverse_tables_above reg c _ (2 ^ c) _ _ _ _ _ c habove]
    try dsimp only
    simp only [beq_self_eq_true, if_true, Option.getD_some]
    rw [dictGet_insert, if_pos rfl]
    rfl
  · have hk' : (f.isFK && f.relToContentType) = false := by simpa using hk
    rw [hk'] at hok
    exact absurd hok (by simp)

/-- On the success path the receiver sets the sender's
`_is_polymorphic_root` to whether none of its bases leads to a concrete
polymorphic class. -/
theorem prepare_ok_isRoot {reg : Registry} {st st' : RegState} {c : Nat}
    (hp : (info reg c).polymorphic = true)
    (ha : (info reg c).abstract = false)
    (hok : prepare_polymorphic_model reg st c = .ok st') :
    st'.isRoot c = some (!((basesOf reg c).any (touchesConcrete reg))) := by
  unfold prepare_polymorphic_model at hok
  rw [hp, if_pos rfl] at hok
  rcases hn : (info reg c).ctFieldName with _ | n <;> simp only [hn] at hok
  · exact absurd hok (by simp)
  rcases hf : get_field reg c n with _ | f <;> simp only [hf] at hok
  · exact absurd hok (by simp)
  by_cases hk : (f.isFK && f.relToContentType) = true
  · rw [hk] at hok
    simp only [Bool.not_true, Bool.false_eq_true, if_false, Except.ok.injEq]
      at hok
    subst hok
    try dsimp only
    simp only [beq_self_eq_true, if_true, Option.some.injEq]
    exact traverse_root_flag reg c _ _ hp ha
  · have hk' : (f.isFK && f.relToContentType) = false := by simpa using hk
    rw [hk'] at hok
    exact absurd hok (by simp)

/-- A successful invocation for sender `s` does not change the entry stored
under key `k` on the table of class `c`, for `c ≠ s` and `k ≠ s`. -/
theorem prepare_get_preserved {reg : Registry} {st st' : RegState} {s : Nat}
    (hok : prepare_polymorphic_model reg st s = .ok st') (c k : Nat)
    (hc : c ≠ s) (hk : k ≠ s) :
    dictGet ((st'.tables c).getD []) k = dictGet ((st.tables c).getD []) k := by
  unfold prepare_polymorphic_model at hok
  by_cases hp : (info reg s).polymorphic = true
  · rw [hp, if_pos rfl] at hok
    rcases hn : (info reg s).ctFieldName with _ | n <;> simp only [hn] at hok
    · exact absurd hok (by simp)
    rcases hf : get_field reg s n with _ | f <;> simp only [hf] at hok
    · exact absurd hok (by simp)
    by_cases hfk : (f.isFK && f.relToContentType) = true
    · rw [hfk] at hok
      simp only [Bool.not_true, Bool.false_eq_true, if_false,
        Except.ok.injEq] at hok
      subst hok
      try dsimp only
      rw [traverse_get_ne reg s _ _ _ _ _ _ _ c k hk]
      have hc' : (c == s) = false := beq_eq_false_iff_ne.mpr hc
      simp only [hc', Bool.false_eq_true, if_false]
    · have hfk' : (f.isFK && f.relToContentType) = false := by simpa using hfk
      rw [hfk'] at hok
      exact absurd hok (by simp)
  · have hp' : (info reg s).polymorphic = false := by simpa using hp
    rw [hp'] at hok
    simp only [Bool.false_eq_true, if_false, Except.ok.injEq] at hok
    subst hok
    rfl

/-- A successful invocation for sender `s` does not change
`_is_polymorphic_root` of any other class. -/
theorem prepare_isRoot_preserved {reg : Registry} {st st' : RegState} {s : Nat}
    (hok : prepare_polymorphic_model reg st s = .ok st') (c : Nat)
    (hc : c ≠ s) : st'.isRoot c = st.isRoot c := by
  unfold prepare_polymorphic_model at hok
  by_cases hp : (info reg s).polymorphic = true
  · rw [hp, if_pos rfl] at hok
    rcases hn : (info reg s).ctFieldName with _ | n <;> simp only [hn] at hok
    · exact absurd hok (by simp)
    rcases hf : get_field reg s n with _ | f <;> simp only [hf] at hok
    · exact absurd hok (by simp)
    by_cases hfk : (f.isFK && f.relToContentType) = true
    · rw [hfk] at hok
      simp only [Bool.not_true, Bool.false_eq_true, if_false,
        Except.ok.injEq] at hok
      subst hok
      try dsimp only
      have hc' : (c == s) = false := beq_eq_false_iff_ne.mpr hc
      simp only [hc', Bool.false_eq_true, if_false]
    · have hfk' : (f.isFK && f.relToContentType) = false := by simpa using hfk
      rw [hfk'] at hok
      exact absurd hok (by simp)
  · have hp' : (info reg s).polymorphic = false := by simpa using hp
    rw [hp'] at hok
    simp only [Bool.false_eq_true, if_false, Except.ok.injEq] at hok
    subst hok
    rfl

/-- A successful invocation either does nothing (non-polymorphic sender) or
installs a fresh table on the sender and runs the loop. -/
theorem prepare_ok_cases {reg : Registry} {st st' : RegState} {s : Nat}
    (hok : prepare_polymorphic_model reg st s = .ok st') :
    st' = st ∨
      ∃ pr,
        st'.tables =
          (traverse reg s pr (2 ^ s + 1) [s] []
            (fun c => if c == s then some [] else st.tables c) false
            []).tables ∧
        st'.isRoot = fun c =>
          if c == s then
            some ((traverse reg s pr (2 ^ s + 1) [s] []
              (fun c => if c == s then some [] else st.tables c) false
              []).flag)
          else st.isRoot c := by
  unfold prepare_polymorphic_model at hok
  by_cases hp : (info reg s).polymorphic = true
  · rw [hp, if_pos rfl] at hok
    rcases hn : (info reg s).ctFieldName with _ | n <;> simp only [hn] at hok
    · exact absurd hok (by simp)
    rcases hf : get_field reg s n with _ | f <;> simp only [hf] at hok
    · exact absurd hok (by simp)
    by_cases hfk : (f.isFK && f.relToContentType) = true
    · rw [hfk] at hok
      simp only [Bool.not_true, Bool.false_eq_true, if_false,
        Except.ok.injEq] at hok
      subst hok
      right
      exact ⟨_, rfl, rfl⟩
    · have hfk' : (f.isFK && f.relToContentType) = false := by simpa using hfk
      rw [hfk'] at hok
      exact absurd hok (by simp)
  · have hp' : (info reg s).polymorphic = false := by simpa using hp
    rw [hp'] at hok
    simp only [Bool.false_eq_true, if_false, Except.ok.injEq] at hok
    exact Or.inl hok.symm

/-- A successful invocation keeps the single-hop-lookup invariant on all
stored entries. -/
theorem prepare_lookup_inv {reg : Registry} {st st' : RegState} {s : Nat}
    (hok : prepare_polymorphic_model reg st s = .ok st')
    (hP : ∀ c k a, dictGet ((st.tables c).getD []) k = some a →
      a.lookup = (a.attrs.head?).getD "") :
    ∀ c k a, dictGet ((st'.tables c).getD []) k = some a →
      a.lookup = (a.attrs.head?).getD "" := by
  rcases prepare_ok_cases hok with h | ⟨pr, ht, _⟩
  · subst h
    exact hP
  · intro c k a ha
    rw [ht] at ha
    refine traverse_lookup_inv reg s pr _ _ _ _ _ _ ?_ c k a ha
    intro c' k' a' h'
    by_cases hc : (c' == s) = true
    · rw [hc, if_pos rfl] at h'
      exact absurd h' (by simp [dictGet])
    · have hc' : (c' == s) = false := by simpa using hc
      rw [hc', if_neg (by simp)] at h'
      exact hP c' k' a' h'

/-- A successful invocation keeps the keys-denote-subclasses invariant on
all stored entries. -/
theorem prepare_keys_inv {reg : Registry} {st st' : RegState} {s : Nat}
    (hok : prepare_polymorphic_model reg st s = .ok st')
    (hP : ∀ c k a, dictGet ((st.tables c).getD []) k = some a →
      isSubclass reg k c = true) :
    ∀ c k a, dictGet ((st'.tables c).getD []) k = some a →
      isSubclass reg k c = true := by
  rcases prepare_ok_cases hok with h | ⟨pr, ht, _⟩
  · subst h
    exact hP
  · intro c k a ha
    rw [ht] at ha
    refine traverse_keys_subclass reg s pr _ _ _ _ _ _ ?_ ?_ c k a ha
    · intro x hx
      have hx' : x = s := by simpa using hx
      subst hx'
      exact isSubclass_refl reg x
    · intro c' k' a' h'
      by_cases hc : (c' == s) = true
      · rw [hc, if_pos rfl] at h'
        exact absurd h' (by simp [dictGet])
      · have hc' : (c' == s) = false := by simpa using hc
        rw [hc', if_neg (by simp)] at h'
        exact hP c' k' a' h'

/-! ## Lemmas about `prepareAll` -/

theorem foldl_prepare_inv (reg : Registry) (P : RegState → Prop)
    (hstep : ∀ st s st', prepare_polymorphic_model reg st s = .ok st' →
      P st → P st') :
    ∀ (l : List Nat) (st0 st : RegState),
      l.foldlM (fun st sender => prepare_polymorphic_model reg st sender) st0
        = .ok st →
      P st0 → P st := by
  intro l
  induction l with
  | nil =>
    intro st0 st h hP
    simp only [List.foldlM_nil] at h
    cases h
    exact hP
  | cons a l ih =>
    intro st0 st h hP
    rw [List.foldlM_cons] at h
    cases h1 : prepare_polymorphic_model reg st0 a with
    | error e =>
      rw [h1] at h
      exact Except.noConfusion h
    | ok st1 =>
      rw [h1] at h
      exact ih st1 st h (hstep st0 a st1 h1 hP)

theorem foldl_get_preserved (reg : Registry) :
    ∀ (l : List Nat) (st0 st : RegState),
      l.foldlM (fun st sender => prepare_polymorphic_model reg st sender) st0
        = .ok st →
      ∀ c k, c ∉ l → k ∉ l →
        dictGet ((st.tables c).getD []) k
          = dictGet ((st0.tables c).getD []) k := by
  intro l
  induction l with
  | nil =>
    intro st0 st h c k _ _
    simp only [List.foldlM_nil] at h
    cases h
    rfl
  | cons a l ih =>
    intro st0 st h c k hc hk
    rw [List.foldlM_cons] at h
    cases h1 : prepare_polymorphic_model reg st0 a with
    | error e =>
      rw [h1] at h
      exact Except.noConfusion h
    | ok st1 =>
      rw [h1] at h
      rw [ih st1 st h c k (fun hmem => hc (List.mem_cons_of_mem a hmem))
        (fun hmem => hk (List.mem_cons_of_mem a hmem))]
      exact prepare_get_preserved h1 c k
        (fun hca => hc (hca ▸ List.mem_cons_self a l))
        (fun hka => hk (hka ▸ List.mem_cons_self a l))

theorem foldl_isRoot_preserved (reg : Registry) :
    ∀ (l : List Nat) (st0 st : RegState),
      l.foldlM (fun st sender => prepare_polymorphic_model reg st sender) st0
        = .ok st →
      ∀ c, c ∉ l → st.isRoot c = st0.isRoot c := by
  intro l
  induction l with
  | nil =>
    intro st0 st h c _
    simp only [List.foldlM_nil] at h
    cases h
    rfl
  | cons a l ih =>
    intro st0 st h c hc
    rw [List.foldlM_cons] at h
    cases h1 : prepare_polymorphic_model reg st0 a with
    | error e =>
      rw [h1] at h
      exact Except.noConfusion h
    | ok st1 =>
      rw [h1] at h
      rw [ih st1 st h c (fun hmem => hc (List.mem_cons_of_mem a hmem))]
      exact prepare_isRoot_preserved h1 c
        (fun hca => hc (hca ▸ List.mem_cons_self a l))

theorem foldl_own_entry (reg : Registry) :
    ∀ (l : List Nat) (st0 st : RegState), l.Nodup →
      l.foldlM (fun st sender => prepare_polymorphic_model reg st sender) st0
        = .ok st →
      ∀ c ∈ l, (info reg c).polymorphic = true →
        (info reg c).abstract = false →
        dictGet ((st.tables c).getD []) c
          = some ⟨[], if (info reg c).proxy then some c else none, ""⟩ := by
  intro l
  induction l with
  | nil =>
    intro st0 st _ _ c hc
    simp at hc
  | cons a l ih =>
    intro st0 st hnd h c hc hp ha
    have hnd' := List.nodup_cons.mp hnd
    rw [List.foldlM_cons] at h
    cases h1 : prepare_polymorphic_model reg st0 a with
    | error e =>
      rw [h1] at h
      exact Except.noConfusion h
    | ok st1 =>
      rw [h1] at h
      rcases List.mem_cons.mp hc with hca | hcl
      · subst hca
        rw [foldl_get_preserved reg l st1 st h c c hnd'.1 hnd'.1]
        exact prepare_ok_own_entry hp ha h1
      · exact ih st1 st hnd'.2 h c hcl hp ha

theorem foldl_isRoot_value (reg : Registry) :
    ∀ (l : List Nat) (st0 st : RegState), l.Nodup →
      l.foldlM (fun st sender => prepare_polymorphic_model reg st sender) st0
        = .ok st →
      ∀ c ∈ l, (info reg c).polymorphic = true →
        (info reg c).abstract = false →
        st.isRoot c
          = some (!((basesOf reg c).any (touchesConcrete reg))) := by
  intro l
  induction l with
  | nil =>
    intro st0 st _ _ c hc
    simp at hc
  | cons a l ih =>
    intro st0 st hnd h c hc hp ha
    have hnd' := List.nodup_cons.mp hnd
    rw [List.foldlM_cons] at h
    cases h1 : prepare_polymorphic_model reg st0 a with
    | error e =>
      rw [h1] at h
      exact Except.noConfusion h
    | ok st1 =>
      rw [h1] at h
      rcases List.mem_cons.mp hc with hca | hcl
      · subst hca
        rw [foldl_isRoot_preserved reg l st1 st h c hnd'.1]
        exact prepare_ok_isRoot hp ha h1
      · exact ih st1 st hnd'.2 h c hcl hp ha

/-- After `prepareAll`, every concrete polymorphic class's table holds its
own entry: empty chain, proxy marker for proxies, empty lookup. -/
theorem prepareAll_own_entry {reg : Registry} {st : RegState}
    (h : prepareAll reg = .ok st) (c : Nat) (hc : c < reg.length)
    (hp : (info reg c).polymorphic = true)
    (ha : (info reg c).abstract = false) :
    dictGet ((st.tables c).getD []) c
      = some ⟨[], if (info reg c).proxy then some c else none, ""⟩ :=
  foldl_own_entry reg (List.range reg.length) initState st
    (List.nodup_range reg.length) h c (List.mem_range.mpr hc) hp ha

/-- After `prepareAll`, every concrete polymorphic class's
`_is_polymorphic_root` records whether none of its bases leads to a
concrete polymorphic class. -/
theorem prepareAll_isRoot {reg : Registry} {st : RegState}
    (h : prepareAll reg = .ok st) (c : Nat) (hc : c < reg.length)
    (hp : (info reg c).polymorphic = true)
    (ha : (info reg c).abstract = false) :
    st.isRoot c = some (!((basesOf reg c).any (touchesConcrete reg))) :=
  foldl_isRoot_value reg (List.range reg.length) initState st
    (List.nodup_range reg.length) h c (List.mem_range.mpr hc) hp ha

/-- After `prepareAll`, every stored entry's lookup path is the first
accessor name of its chain. -/
theorem prepareAll_lookup {reg : Registry} {st : RegState}
    (h : prepareAll reg = .ok st) :
    ∀ c k a, dictGet ((st.tables c).getD []) k = some a →
      a.lookup = (a.attrs.head?).getD "" := by
  refine foldl_prepare_inv reg
    (fun st => ∀ c k a, dictGet ((st.tables c).getD []) k = some a →
      a.lookup = (a.attrs.head?).getD "")
    (fun st s st' hok hP => prepare_lookup_inv hok hP)
    (List.range reg.length) initState st h ?_
  intro c k a ha
  exact absurd ha (by simp [initState, dictGet])

/-- After `prepareAll`, every key stored on a class's table denotes a
subclass of that class. -/
theorem prepareAll_keys {reg : Registry} {st : RegState}
    (h : prepareAll reg = .ok st) :
    ∀ c k a, dictGet ((st.tables c).getD []) k = some a →
      isSubclass reg k c = true := by
  refine foldl_prepare_inv reg
    (fun st => ∀ c k a, dictGet ((st.tables c).getD []) k = some a →
      isSubclass reg k c = true)
    (fun st s st' hok hP => prepare_keys_inv hok hP)
    (List.range reg.length) initState st h ?_
  intro c k a ha
  exact absurd ha (by simp [initState, dictGet])

/-! ## Bridging `touchesConcrete` and concrete polymorphic ancestors -/

theorem touches_exists {reg : Registry} :
    ∀ b, touchesConcrete reg b = true →
      ∃ a, isSubclass reg b a = true ∧ (info reg a).polymorphic = true ∧
        (info reg a).abstract = false := by
  intro b
  induction b using Nat.strong_induction_on with
  | _ b ih =>
    intro h
    rw [touchesConcrete_unfold] at h
    rcases Bool.and_eq_true_iff.mp h with ⟨hp, hca⟩
    rcases Bool.or_eq_true_iff.mp hca with hconc | hany
    · exact ⟨b, isSubclass_refl reg b, hp, by simpa using hconc⟩
    · rcases List.any_eq_true.mp hany with ⟨x, hx, htx⟩
      rcases ih x (mem_basesOf_lt hx) htx with ⟨a, hsa, hpa, haa⟩
      exact ⟨a, isSubclass_trans b x a (isSubclass_of_base hx) hsa, hpa, haa⟩

theorem poly_of_ancestor {reg : Registry}
    (hinh : ∀ c b, b ∈ basesOf reg c → (info reg b).polymorphic = true →
      (info reg c).polymorphic = true) :
    ∀ c a, isSubclass reg c a = true → (info reg a).polymorphic = true →
      (info reg c).polymorphic = true := by
  intro c
  induction c using Nat.strong_induction_on with
  | _ c ih =>
    intro a h hpa
    rw [isSubclass_unfold] at h
    rcases Bool.or_eq_true_iff.mp h with h | h
    · have hca : c = a := by simpa using h
      subst hca
      exact hpa
    · rcases List.any_eq_true.mp h with ⟨x, hx, hsx⟩
      exact hinh c x hx (ih x (mem_basesOf_lt hx) a hsx hpa)

theorem touches_of_ancestor {reg : Registry}
    (hinh : ∀ c b, b ∈ basesOf reg c → (info reg b).polymorphic = true →
      (info reg c).polymorphic = true) :
    ∀ b a, isSubclass reg b a = true → (info reg a).polymorphic = true →
      (info reg a).abstract = false → touchesConcrete reg b = true := by
  intro b
  induction b using Nat.strong_induction_on with
  | _ b ih =>
    intro a h hpa haa
    have hpb : (info reg b).polymorphic = true :=
      poly_of_ancestor hinh b a h hpa
    rw [isSubclass_unfold] at h
    rcases Bool.or_eq_true_iff.mp h with h | h
    · have hba : b = a := by simpa using h
      subst hba
      exact touchesConcrete_of_concrete hpb haa
    · rcases List.any_eq_true.mp h with ⟨x, hx, hsx⟩
      have htx := ih x (mem_basesOf_lt hx) a hsx hpa haa
      rw [touchesConcrete_unfold, hpb, Bool.true_and]
      refine Bool.or_eq_true_iff.mpr (Or.inr ?_)
      exact List.any_eq_true.mpr ⟨x, hx, htx⟩

theorem any_touches_iff_ancestor {reg : Registry} {c : Nat}
    (hinh : ∀ c b, b ∈ basesOf reg c → (info reg b).polymorphic = true →
      (info reg c).polymorphic = true) :
    (basesOf reg c).any (touchesConcrete reg) = true ↔
      ∃ a, a ≠ c ∧ isSubclass reg c a = true ∧
        (info reg a).polymorphic = true ∧ (info reg a).abstract = false := by
  constructor
  · intro h
    rcases List.any_eq_true.mp h with ⟨b, hb, htb⟩
    rcases touches_exists b htb with ⟨a, hsa, hpa, haa⟩
    have hab : a ≤ b := isSubclass_le b a hsa
    have hbc : b < c := mem_basesOf_lt hb
    exact ⟨a, by omega,
      isSubclass_trans c b a (isSubclass_of_base hb) hsa, hpa, haa⟩
  · rintro ⟨a, hne, hs, hpa, haa⟩
    rw [isSubclass_unfold] at hs
    rcases Bool.or_eq_true_iff.mp hs with h | h
    · have hca : c = a := by simpa using h
      exact absurd hca.symm hne
    · rcases List.any_eq_true.mp h with ⟨b, hb, hsb⟩
      exact List.any_eq_true.mpr
        ⟨b, hb, touches_of_ancestor hinh b a hsb hpa haa⟩

/-! ## The claims -/

/-- C4: `save` sets the discriminator field to the registry id of the
instance's exact runtime class exactly when the primary key is unset, then
delegates; with a primary key set it hands the instance over untouched,
whatever its in-memory class. -/
theorem C4_save_discriminator (reg : Registry) (ct : CTRegistry) (self : Obj)
    (n : String) (hn : (info reg self.cls).ctFieldName = some n) :
    (self.pk = none →
      save reg ct self = setFieldVal self n (ct.ctOf self.cls) ∧
      getFieldVal (save reg ct self) n = some (ct.ctOf self.cls)) ∧
    (self.pk ≠ none → save reg ct self = self) := by
  constructor
  · intro hpk
    have h1 : save reg ct self = setFieldVal self n (ct.ctOf self.cls) := by
      unfold save
      rw [if_pos hpk, hn]
      rfl
    refine ⟨h1, ?_⟩
    rw [h1]
    simp [getFieldVal, setFieldVal, Obj.fieldVals, List.find?]
  · intro hpk
    unfold save
    rw [if_neg hpk]

/-- C6: a lookup miss in the `_subclass_accessors` table never raises — the
code falls back to `EMPTY_ACCESSOR` (empty chain, no proxy), so the cast is
the identity path, and only the final `isinstance` check can reject it. -/
theorem C6_lookup_miss_fallback (reg : Registry) (tables : Nat → Option Table)
    (self : Obj) (tgt : Nat)
    (hmiss : dictGet ((tables self.cls).getD []) tgt = none) :
    type_cast reg tables self tgt =
      (if isinstance reg self tgt then .ok self else .typeError self tgt) := by
  simp only [type_cast, hmiss, Option.getD_none]
  rfl

/-- C7: every entry stored in any `_subclass_accessors` table carries, as
its lookup path, exactly the first accessor name of its chain (the empty
string for an empty chain) — never more than one hop. -/
theorem C7_lookup_is_first_hop (reg : Registry) (st : RegState)
    (hall : prepareAll reg = .ok st) :
    ∀ c t, st.tables c = some t → ∀ k a, dictGet t k = some a →
      a.lookup = (a.attrs.head?).getD "" := by
  intro c t ht k a hka
  refine prepareAll_lookup hall c k a ?_
  rw [ht, Option.getD_some]
  exact hka

/-- C10 (implicit): a cast whose target has no entry in the instance's
class table and of which the instance already is an instance returns the
very same object — zero hops, no copy; and ancestors are indeed never
recorded as keys in a descendant's table, so upcasts always take this
path. -/
theorem C10_upcast_identity :
    (∀ (reg : Registry) (tables : Nat → Option Table) (self : Obj)
      (tgt : Nat),
      dictGet ((tables self.cls).getD []) tgt = none →
      isinstance reg self tgt = true →
      type_cast reg tables self tgt = .ok self) ∧
    (∀ (reg : Registry) (st : RegState), prepareAll reg = .ok st →
      ∀ c t, st.tables c = some t → ∀ k, isSubclass reg c k = true →
        k ≠ c → dictGet t k = none) := by
  constructor
  · intro reg tables self tgt hmiss hi
    simp only [type_cast, hmiss, Option.getD_none]
    show (if isinstance reg self tgt = true then CastResult.ok self
      else CastResult.typeError self tgt) = CastResult.ok self
    rw [if_pos hi]
  · intro reg st hall c t ht k hck hkc
    cases hdg : dictGet t k with
    | none => rfl
    | some a =>
      have h1 : isSubclass reg k c = true := by
        refine prepareAll_keys hall c k a ?_
        rw [ht, Option.getD_some]
        exact hdg
      have h2 := isSubclass_le c k hck
      have h3 := isSubclass_le k c h1
      exact absurd (by omega : k = c) hkc

/-- C5: every registered concrete polymorphic class's own table entry has
an empty accessor chain (with the class itself as proxy marker when it is a
proxy), so casting an instance to its own exact type walks zero hops, never
raises, and returns the object itself — or, for a proxy class, a
proxy-typed copy of it. -/
theorem C5_cast_to_own_type (reg : Registry) (st : RegState)
    (hall : prepareAll reg = .ok st) (c : Nat) (hc : c < reg.length)
    (hp : (info reg c).polymorphic = true)
    (ha : (info reg c).abstract = false) :
    dictGet ((st.tables c).getD []) c
      = some ⟨[], if (info reg c).proxy then some c else none, ""⟩ ∧
    ∀ self : Obj, self.cls = c →
      type_cast reg st.tables self c
        = .ok (if (info reg c).proxy then copy_fields self c else self) := by
  have hown := prepareAll_own_entry hall c hc hp ha
  refine ⟨hown, ?_⟩
  intro self hself
  have hii : isinstance reg (copy_fields self c) c = true := by
    simp only [isinstance, copy_fields, Obj.cls]
    exact isSubclass_refl reg c
  have hi2 : isinstance reg self c = true := by
    rw [isinstance, hself]
    exact isSubclass_refl reg c
  by_cases hpr : (info reg c).proxy = true
  · simp only [hpr, if_true] at hown ⊢
    simp only [type_cast, hself, hown, Option.getD_some]
    show (if isinstance reg (copy_fields self c) c = true then
        CastResult.ok (copy_fields self c)
      else CastResult.typeError self c) = CastResult.ok (copy_fields self c)
    rw [if_pos hii]
  · have hpr' : (info reg c).proxy = false := by simpa using hpr
    simp only [hpr', Bool.false_eq_true, if_false] at hown ⊢
    simp only [type_cast, hself, hown, Option.getD_some]
    show (if isinstance reg self c = true then CastResult.ok self
      else CastResult.typeError self c) = CastResult.ok self
    rw [if_pos hi2]

/-- C2: on the spec's Root → Middle → Leaf hierarchy, Root's table maps
Leaf to the two-hop chain `("middle", "leaf")` and Middle's maps Leaf to
`("leaf")`; in general each concrete non-abstract polymorphic parent
records, for the new type, the accessor names accumulated before its own
link, and prepends its lowercased class name unless it is a proxy — so
chains list names nearest-to-the-ancestor first. -/
theorem C2_chain_construction :
    (tableAt linear3 0 1 = some ⟨["middle"], none, "middle"⟩ ∧
     tableAt linear3 0 2 = some ⟨["middle", "leaf"], none, "middle"⟩ ∧
     tableAt linear3 1 2 = some ⟨["leaf"], none, "leaf"⟩) ∧
    (∀ (reg : Registry) (s : Nat) (pr : Option Nat) (fuel p : Nat)
        (rest : List Nat) (attrs : List String)
        (tables : Nat → Option Table) (flag : Bool) (trace : List Nat),
      (info reg p).polymorphic = true → (info reg p).abstract = false →
      traverse reg s pr (fuel + 1) (p :: rest) attrs tables flag trace
        = traverse reg s pr fuel (basesOf reg p ++ rest)
            (if (info reg p).proxy then attrs
              else lower (info reg p).name :: attrs)
            (fun c =>
              if c == p then
                some (dictInsert ((tables p).getD []) s
                  ⟨attrs, pr, lookupOf attrs⟩)
              else tables c)
            (p == s) (trace ++ [p])) := by
  refine ⟨⟨by decide, by decide, by decide⟩, ?_⟩
  intro reg s pr fuel p rest attrs tables flag trace hp ha
  exact traverse_step_concrete reg s pr fuel p rest attrs tables flag trace
    hp ha

/-- C3: for a polymorphic sender, the `class_prepared` receiver raises
`ImproperlyConfigured` precisely when the discriminator-field declaration
is missing, names an inexistent field, or names a field that is not a
`ForeignKey` to `ContentType`; on a raise the sender's class state is left
exactly as it was — no accessor table is installed. -/
theorem C3_config_error_iff (reg : Registry) (st : RegState) (sender : Nat)
    (hp : (info reg sender).polymorphic = true) :
    ((prepareRun reg st sender).2 ≠ none ↔
      ((info reg sender).ctFieldName = none ∨
        (∃ n, (info reg sender).ctFieldName = some n ∧
          get_field reg sender n = none) ∨
        (∃ n f, (info reg sender).ctFieldName = some n ∧
          get_field reg sender n = some f ∧
          (f.isFK && f.relToContentType) = false))) ∧
    ((prepareRun reg st sender).2 ≠ none →
      (prepareRun reg st sender).1 = st) := by
  rcases hn : (info reg sender).ctFieldName with _ | n
  · have hrun : prepareRun reg st sender
        = (st, some ConfigError.missingFieldName) := by
      unfold prepareRun prepare_polymorphic_model
      simp [hp, hn]
    rw [hrun]
    exact ⟨⟨fun _ => Or.inl rfl, fun _ => by simp⟩, fun _ => rfl⟩
  · rcases hf : get_field reg sender n with _ | f
    · have hrun : prepareRun reg st sender
          = (st, some (ConfigError.fieldDoesNotExist n)) := by
        unfold prepareRun prepare_polymorphic_model
        simp [hp, hn, hf]
      rw [hrun]
      exact ⟨⟨fun _ => Or.inr (Or.inl ⟨n, rfl, hf⟩), fun _ => by simp⟩,
        fun _ => rfl⟩
    · by_cases hfk : (f.isFK && f.relToContentType) = true
      · have hrun : (prepareRun reg st sender).2 = none := by
          unfold prepareRun prepare_polymorphic_model
          simp [hp, hn, hf, hfk]
        constructor
        · constructor
          · intro h
            exact absurd hrun h
          · rintro (h | ⟨n', hn', hf'⟩ | ⟨n', f', hn', hf', hk'⟩)
            · exact Option.noConfusion h
            · cases hn'
              rw [hf] at hf'
              exact Option.noConfusion hf'
            · cases hn'
              rw [hf] at hf'
              cases hf'
              rw [hfk] at hk'
              exact Bool.noConfusion hk'
        · intro h
          exact absurd hrun h
      · have hfk' : (f.isFK && f.relToContentType) = false := by
          simpa using hfk
        have hrun : prepareRun reg st sender
            = (st, some (ConfigError.wrongFieldKind n)) := by
          unfold prepareRun prepare_polymorphic_model
          simp [hp, hn, hf, hfk']
        rw [hrun]
        exact ⟨⟨fun _ => Or.inr (Or.inr ⟨n, f, rfl, hf, hfk'⟩),
          fun _ => by simp⟩, fun _ => rfl⟩

/-- Ids outside the registry have no bases (helps discharge universally
quantified shape hypotheses on concrete registries). -/
theorem basesOf_ge_length (reg : Registry) (x : Nat)
    (hx : reg.length ≤ x) : basesOf reg x = [] := by
  unfold basesOf info
  rw [List.getElem?_eq_none hx]
  rfl

/-- C8 counterexample: on a diamond `D(B, C)`, `B(A)`, `C(A)` the
traversal processes the shared ancestor `A` (id 0) twice — the worklist is
a depth-first preorder, not the method-resolution order, and it does not
deduplicate. -/
theorem C8_counterexample :
    prepareTrace diamond4 3 = [3, 1, 0, 2, 0] ∧
    ¬ (prepareTrace diamond4 3).Nodup := ⟨by decide, by decide⟩

/-- C8 amended: the traversal starts from the new type itself and follows
bases depth-first; in a single-inheritance registry (at most one base per
class) it processes exactly the polymorphic ancestor chain, each ancestor
once, nearest first — which there coincides with the method-resolution
order.  (With multiple inheritance a shared ancestor is processed once per
path; see the counterexample.) -/
theorem C8_traversal_order (reg : Registry) (sender : Nat)
    (hlin : ∀ x, (basesOf reg x).length ≤ 1)
    (hp : (info reg sender).polymorphic = true) :
    prepareTrace reg sender = chainFrom reg sender ∧
    (chainFrom reg sender).Nodup ∧
    (chainFrom reg sender).head? = some sender := by
  refine ⟨?_, chainFrom_nodup reg sender, ?_⟩
  · unfold prepareTrace
    have hm : wlMeasure [sender] < 2 ^ sender + 1 := by
      simp only [wlMeasure, List.map_cons, List.map_nil, List.sum_cons,
        List.sum_nil]
      omega
    have h := traverse_trace_linear reg sender
      (if (info reg sender).proxy then some sender else none) hlin
      (2 ^ sender + 1) sender [] (fun _ => none) false [] hm
    rw [h, List.nil_append]
  · rw [chainFrom_unfold, hp, if_pos rfl]
    rfl

/-- C9: a freshly prepared concrete polymorphic class is marked
`_is_polymorphic_root` if and only if it has no strict ancestor that is a
concrete (non-abstract) polymorphic class; on the linear example exactly
the top class is marked. -/
theorem C9_root_marking (reg : Registry) (st : RegState)
    (hall : prepareAll reg = .ok st)
    (hinh : ∀ c b, b ∈ basesOf reg c → (info reg b).polymorphic = true →
      (info reg c).polymorphic = true)
    (c : Nat) (hc : c < reg.length)
    (hp : (info reg c).polymorphic = true)
    (ha : (info reg c).abstract = false) :
    (st.isRoot c = some true ↔
      ¬ ∃ a, a ≠ c ∧ isSubclass reg c a = true ∧
        (info reg a).polymorphic = true ∧ (info reg a).abstract = false) ∧
    (rootAt linear3 0 = some true ∧ rootAt linear3 1 = some false ∧
      rootAt linear3 2 = some false) := by
  refine ⟨?_, by decide, by decide, by decide⟩
  rw [prepareAll_isRoot hall c hc hp ha]
  constructor
  · intro h hex
    have htrue : (basesOf reg c).any (touchesConcrete reg) = true :=
      (any_touches_iff_ancestor hinh).mpr hex
    rw [htrue] at h
    simp at h
  · intro h
    have hfalse : (basesOf reg c).any (touchesConcrete reg) = false := by
      cases hb : (basesOf reg c).any (touchesConcrete reg) with
      | false => rfl
      | true => exact absurd ((any_touches_iff_ancestor hinh).mp hb) h
    rw [hfalse]
    rfl

/-- C1: `type_cast` either returns an object that is an instance of the
resolved target type or raises `TypeError` carrying the source instance
and the target; whenever the accessor-chain walk (followed by the proxy
reinterpretation) produces an object, the `TypeError` is raised exactly
when that object is not an instance of the target, and otherwise that very
object is returned — a mismatched object is never returned silently. -/
theorem C1_cast_soundness (reg : Registry) (tables : Nat → Option Table)
    (self : Obj) (tgt : Nat) :
    (∀ o, type_cast reg tables self tgt = .ok o →
      isinstance reg o tgt = true) ∧
    (∀ w, walkedObj tables self tgt = some w →
      ((type_cast reg tables self tgt = .typeError self tgt ↔
          isinstance reg w tgt = false) ∧
        (isinstance reg w tgt = true →
          type_cast reg tables self tgt = .ok w))) := by
  simp only [type_cast, walkedObj]
  cases hw : walk self
      ((dictGet ((tables self.cls).getD []) tgt).getD EMPTY_ACCESSOR).attrs
      with
  | none =>
    constructor
    · intro o h
      exact CastResult.noConfusion h
    · intro w h
      exact Option.noConfusion h
  | some w0 =>
    simp only [Option.map_some]
    cases hi : isinstance reg
        (match ((dictGet ((tables self.cls).getD [])
            tgt).getD EMPTY_ACCESSOR).proxy with
          | some pr => copy_fields w0 pr
          | none => w0) tgt with
    | true =>
      rw [if_pos rfl]
      constructor
      · intro o h
        cases h
        exact hi
      · intro w h
        rw [Option.map_some'] at h
        cases h
        refine ⟨⟨fun hc => CastResult.noConfusion hc, fun hc => ?_⟩,
          fun _ => rfl⟩
        rw [hi] at hc
        exact Bool.noConfusion hc
    | false =>
      rw [if_neg (by simp)]
      constructor
      · intro o h
        exact CastResult.noConfusion h
      · intro w h
        rw [Option.map_some'] at h
        cases h
        refine ⟨⟨fun _ => hi, fun _ => rfl⟩, fun hc => ?_⟩
        rw [hi] at hc
        exact Bool.noConfusion hc

/-! ## Witnesses -/

/-- Witness for C1 on concrete data: an upward-recovered `Leaf` is an
instance of `Leaf`, and casting the `Middle` row down to `Leaf` walks its
one-to-one accessor. -/
theorem C1_cast_soundness_witness :
    isinstance linear3 leafObj 2 = true ∧
    type_cast linear3 (tablesOf linear3) middleObj 2 = .ok leafObj :=
  ⟨(C1_cast_soundness linear3 (tablesOf linear3) rootObj 2).1 leafObj rfl,
    ((C1_cast_soundness linear3 (tablesOf linear3) middleObj 2).2 leafObj
      rfl).2 (by decide)⟩

/-- Witness for C2: one loop step on `Middle` while preparing `Leaf`. -/
theorem C2_chain_construction_witness :
    traverse linear3 2 none (7 + 1) (1 :: []) ["leaf"] (fun _ => some [])
        false [2]
      = traverse linear3 2 none 7 (basesOf linear3 1 ++ [])
          (if (info linear3 1).proxy then ["leaf"]
            else lower (info linear3 1).name :: ["leaf"])
          (fun c =>
            if c == 1 then
              some (dictInsert (((fun _ => some ([] : Table)) 1).getD []) 2
                ⟨["leaf"], none, lookupOf ["leaf"]⟩)
            else (fun _ => some ([] : Table)) c)
          ((1 : Nat) == 2) ([2] ++ [1]) :=
  C2_chain_construction.2 linear3 2 none 7 1 [] ["leaf"] (fun _ => some [])
    false [2] (by decide) (by decide)

/-- Witness for C3: a polymorphic class without a
`content_type_field_name` declaration raises and leaves state untouched. -/
theorem C3_config_error_iff_witness :
    (prepareRun badReg1 initState 0).2 ≠ none ∧
    (prepareRun badReg1 initState 0).1 = initState := by
  have t := C3_config_error_iff badReg1 initState 0 (by decide)
  have h1 : (prepareRun badReg1 initState 0).2 ≠ none :=
    t.1.mpr (Or.inl (by decide))
  exact ⟨h1, t.2 h1⟩

/-- Witness for C4: a new `Leaf` gets discriminator `ctReg.ctOf 2 = 12`;
a saved one is handed over untouched. -/
theorem C4_save_discriminator_witness :
    getFieldVal (save linear3 ctReg newLeafObj) "content_type" = some 12 ∧
    save linear3 ctReg leafObj = leafObj :=
  ⟨((C4_save_discriminator linear3 ctReg newLeafObj "content_type"
      (by decide)).1 rfl).2,
    (C4_save_discriminator linear3 ctReg leafObj "content_type"
      (by decide)).2 (by decide)⟩

/-- Witness for C5: casting the proxy instance to its own proxy class
copies it into the proxy envelope; casting a `Leaf` to `Leaf` returns it. -/
theorem C5_cast_to_own_type_witness :
    type_cast proxy2 (regStateOf proxy2).tables aliasObj 1
        = .ok (copy_fields aliasObj 1) ∧
    type_cast linear3 (regStateOf linear3).tables leafObj 2 = .ok leafObj :=
  ⟨(C5_cast_to_own_type proxy2 (regStateOf proxy2) rfl 1 (by decide)
      (by decide) (by decide)).2 aliasObj rfl,
    (C5_cast_to_own_type linear3 (regStateOf linear3) rfl 2 (by decide)
      (by decide) (by decide)).2 leafObj rfl⟩

/-- Witness for C6: `Leaf`'s table has no entry for `Root`, so the cast
falls back to the identity path and the final check decides. -/
theorem C6_lookup_miss_fallback_witness :
    type_cast linear3 (tablesOf linear3) leafObj 0
      = (if isinstance linear3 leafObj 0 then .ok leafObj
          else .typeError leafObj 0) :=
  C6_lookup_miss_fallback linear3 (tablesOf linear3) leafObj 0 (by decide)

/-- Witness for C7 on `Root`'s entry for `Leaf`: its lookup path is the
first hop of the two-hop chain. -/
theorem C7_lookup_is_first_hop_witness :
    (⟨["middle", "leaf"], none, "middle"⟩ : Accessor).lookup
      = ((["middle", "leaf"].head?).getD "") :=
  C7_lookup_is_first_hop linear3 (regStateOf linear3) rfl 0
    [(0, ⟨[], none, ""⟩), (1, ⟨["middle"], none, "middle"⟩),
      (2, ⟨["middle", "leaf"], none, "middle"⟩)]
    (by decide) 2 ⟨["middle", "leaf"], none, "middle"⟩ (by decide)

/-- Witness for the amended C8 on the linear hierarchy: preparing `Leaf`
processes `Leaf`, `Middle`, `Root`, once each, nearest first. -/
theorem C8_traversal_order_witness :
    prepareTrace linear3 2 = chainFrom linear3 2 ∧
    (chainFrom linear3 2).Nodup ∧
    (chainFrom linear3 2).head? = some 2 := by
  refine C8_traversal_order linear3 2 ?_ (by decide)
  intro x
  rcases Nat.lt_or_ge x 3 with hx | hx
  · interval_cases x <;> decide
  · rw [basesOf_ge_length linear3 x hx]
    simp

/-- Witness for C9: `Root` is marked as the hierarchy root. -/
theorem C9_root_marking_witness :
    (regStateOf linear3).isRoot 0 = some true ∧
    rootAt linear3 1 = some false := by
  have hinh : ∀ c b, b ∈ basesOf linear3 c →
      (info linear3 b).polymorphic = true →
      (info linear3 c).polymorphic = true := by
    intro c b hb hpb
    rcases Nat.lt_or_ge c 3 with hc | hc
    · interval_cases c <;> simp_all <;> decide
    · rw [basesOf_ge_length linear3 c hc] at hb
      simp at hb
  have t := C9_root_marking linear3 (regStateOf linear3) rfl hinh 0
    (by decide) (by decide) (by decide)
  refine ⟨t.1.mpr ?_, t.2.2.1⟩
  rintro ⟨a, hne, hs, -, -⟩
  have := isSubclass_le 0 a hs
  omega

/-- Witness for C10: upcasting a `Leaf` row to `Root` is the identity, and
`Leaf`'s table indeed has no entry for its ancestor `Root`. -/
theorem C10_upcast_identity_witness :
    type_cast linear3 (tablesOf linear3) leafObj 0 = .ok leafObj ∧
    dictGet [(2, ⟨[], none, ""⟩)] 0 = none :=
  ⟨C10_upcast_identity.1 linear3 (tablesOf linear3) leafObj 0 (by decide)
      (by decide),
    C10_upcast_identity.2 linear3 (regStateOf linear3) rfl 2
      [(2, ⟨[], none, ""⟩)] (by decide) 0 (by decide) (by decide)⟩

end Polymodels
